import Mathlib

/-!
Verification of the transfer-scheduling engine and object-store semantic
layer of the `s3_windows_app` repository.

The development shallowly embeds the relevant Python code:

* `services/s3_client.py` — `delete_objects` (batch delete in chunks of
  1000) and `rename_folder` (copy every key under a prefix, then delete
  the originals).  Keys are Python strings, modelled as `List Char`;
  the remote object store is modelled by the list of keys that exist in
  a bucket (object contents are irrelevant to the verified claims).
  Remote calls that can raise are modelled with an explicit failure
  oracle; a failed call is assumed to have no effect on the store.
* `services/transfer_manager.py` — the priority scheduler: a heap of
  `_QueueItem`s popped in `(priority, seq)` order (the later dataclass
  fields never participate in a comparison because `seq` values are
  distinct), a bounded `active` set, and the `_pump` admission loop.
* `workers/transfer_worker.py` — the per-task worker: the byte-progress
  callback `_cb` and the `run` state machine, modelled as pure functions
  from an environment (outcomes of the gateway / filesystem calls and
  the sequence of progress callbacks delivered by the gateway) to the
  list of emitted Qt signals.  Wall-clock times are rationals; the
  percentage computation `int((seen / total) * 100)` is modelled with
  exact rational arithmetic (`Int.floor`; Python `int()` truncates
  toward zero, which agrees with `floor` on the nonnegative values that
  arise here).
-/

namespace S3App

/-- A Python string (an S3 key, bucket name, local path or task id). -/
abbrev Key := List Char

deriving instance DecidableEq for Except

/-! ## Object-store model and `S3Client` folder operations

The store is the list of keys currently existing in the bucket.
Presence of a key is list membership; deletion removes every
occurrence, so duplicated inserts are harmless. -/

/-- `if not prefix.endswith("/"): prefix += "/"` — prefix normalisation
used by `rename_folder` (and `delete_prefix`/`create_folder`). -/
def normSlash (p : Key) : Key :=
  if p.getLast? = some '/' then p else p ++ ['/']

/-- `list_all_keys(bucket, prefix)`: exhaustive paginated listing of every
key under `prefix`.  Pagination is internal to the client; its result is
the set of keys having `prefix` as a literal prefix. -/
def list_all_keys (store : List Key) (pre : Key) : List Key :=
  store.filter (fun k => pre.isPrefixOf k)

/-- `copy_object`: after a successful server-side copy the destination
key exists (contents are not modelled). -/
def copy_object (store : List Key) (dst : Key) : List Key :=
  store ++ [dst]

/-- One `s3.delete_objects` batch call: with all-success semantics the
listed keys stop existing. -/
def delete_objects_keys (store : List Key) (ks : List Key) : List Key :=
  store.filter (fun k => !(ks.contains k))

/-- `delete_object(bucket, key)`: the key stops existing (S3 delete is
idempotent, deleting an absent key succeeds). -/
def delete_object (store : List Key) (k : Key) : List Key :=
  store.filter (fun x => !(x == k))

/-- The copy loop of `rename_folder`:

```
for k in keys:
    suffix = k[len(old_prefix):]
    dst = new_prefix + suffix
    self.copy_object(bucket, k, bucket, dst)
```

`fail` is the failure oracle: `fail k = true` means the
`copy_object` call for source key `k` raises.  The raised exception
propagates out of `rename_folder`; the store at that moment (holding
the copies already made) is returned in the `error` branch. -/
def copyLoop (fail : Key → Bool) (oldP newP : Key) :
    List Key → List Key → Except (List Key) (List Key)
  | store, [] => Except.ok store
  | store, k :: rest =>
    if fail k then Except.error store
    else copyLoop fail oldP newP (copy_object store (newP ++ k.drop oldP.length)) rest

/-- `rename_folder(bucket, old_prefix, new_prefix)`: normalise both
prefixes, list every key under the old prefix, copy each to the new
prefix, and only then delete the old keys and the old marker.  On a
copy failure the exception propagates (`error` carries the store left
behind, with a partial copy at the destination and the source intact). -/
def rename_folder (fail : Key → Bool) (store : List Key) (oldP0 newP0 : Key) :
    Except (List Key) (List Key) :=
  let oldP := normSlash oldP0
  let newP := normSlash newP0
  let keys := list_all_keys store oldP
  match copyLoop fail oldP newP store keys with
  | Except.error s => Except.error s
  | Except.ok s1 => Except.ok (delete_object (delete_objects_keys s1 keys) oldP)

/-! ### Helper lemmas about `copyLoop` -/

theorem copyLoop_error_superset (fail : Key → Bool) (oldP newP : Key) :
    ∀ (ks store s : List Key),
      copyLoop fail oldP newP store ks = Except.error s →
      ∀ k ∈ store, k ∈ s := by
  intro ks
  induction ks with
  | nil => intro store s h; simp [copyLoop] at h
  | cons k0 rest ih =>
    intro store s h k hk
    simp only [copyLoop] at h
    by_cases hf : fail k0 = true
    · simp [hf] at h
      exact h ▸ hk
    · simp [hf] at h
      exact ih _ s h k (by simp [copy_object, hk])

theorem copyLoop_ok_superset (fail : Key → Bool) (oldP newP : Key) :
    ∀ (ks store s : List Key),
      copyLoop fail oldP newP store ks = Except.ok s →
      ∀ k ∈ store, k ∈ s := by
  intro ks
  induction ks with
  | nil =>
    intro store s h
    simp only [copyLoop, Except.ok.injEq] at h
    exact fun k hk => h ▸ hk
  | cons k0 rest ih =>
    intro store s h k hk
    simp only [copyLoop] at h
    by_cases hf : fail k0 = true
    · simp [hf] at h
    · simp [hf] at h
      exact ih _ s h k (by simp [copy_object, hk])

theorem copyLoop_ok_dst (fail : Key → Bool) (oldP newP : Key) :
    ∀ (ks store s : List Key),
      copyLoop fail oldP newP store ks = Except.ok s →
      ∀ k ∈ ks, (newP ++ k.drop oldP.length) ∈ s := by
  intro ks
  induction ks with
  | nil => intro store s _ k hk; simp at hk
  | cons k0 rest ih =>
    intro store s h k hk
    simp only [copyLoop] at h
    by_cases hf : fail k0 = true
    · simp [hf] at h
    · simp [hf] at h
      rcases List.mem_cons.mp hk with hk0 | hkrest
      · subst hk0
        exact copyLoop_ok_superset fail oldP newP rest _ s h _
          (by simp [copy_object])
      · exact ih _ s h k hkrest

/-- C1 helper: the full statement that nothing is ever removed before
the delete phase. -/
theorem rename_folder_error_superset (fail : Key → Bool)
    (store : List Key) (oldP0 newP0 : Key) (s : List Key)
    (h : rename_folder fail store oldP0 newP0 = Except.error s) :
    ∀ k ∈ store, k ∈ s := by
  unfold rename_folder at h
  dsimp only at h
  rcases hcl : copyLoop fail (normSlash oldP0) (normSlash newP0) store
      (list_all_keys store (normSlash oldP0)) with s' | s'
  · rw [hcl] at h
    simp only [Except.error.injEq] at h
    exact h ▸ copyLoop_error_superset _ _ _ _ _ _ hcl
  · rw [hcl] at h
    simp at h

/-- Two prefixes of the same list are comparable; specialised to a
prefix of an appended list. -/
theorem pre_of_append_pre {a b t : Key} (h : a.isPrefixOf (b ++ t) = true) :
    a.isPrefixOf b = true ∨ b.isPrefixOf a = true := by
  have ha : a <+: b ++ t := List.isPrefixOf_iff_prefix.mp h
  have hb : b <+: b ++ t := List.prefix_append b t
  rcases List.prefix_or_prefix_of_prefix ha hb with hc | hc
  · exact Or.inl (List.isPrefixOf_iff_prefix.mpr hc)
  · exact Or.inr (List.isPrefixOf_iff_prefix.mpr hc)

theorem isPrefixOf_refl (a : Key) : a.isPrefixOf a = true :=
  List.isPrefixOf_iff_prefix.mpr (List.prefix_refl a)

theorem contains_iff (l : List Key) (a : Key) : l.contains a = true ↔ a ∈ l :=
  List.elem_iff

/-- C1: If any copy of a source key fails mid-way, `rename_folder`
aborts without deleting any source key or the old marker: every key
that existed under the (normalised) old prefix before the call still
exists in the store left behind (which may additionally hold a partial
copy at the destination). -/
theorem C1_rename_abort_preserves_source (fail : Key → Bool)
    (store : List Key) (oldP0 newP0 : Key) (s : List Key)
    (h : rename_folder fail store oldP0 newP0 = Except.error s) :
    ∀ k ∈ store, (normSlash oldP0).isPrefixOf k = true → k ∈ s := by
  intro k hk _
  exact rename_folder_error_superset fail store oldP0 newP0 s h k hk

/-- C1 witness: renaming `a/` to `b/` over keys `{a/x, a/y}` where the
copy of `a/y` fails leaves both source keys (plus the orphan `b/x`). -/
theorem C1_rename_abort_witness :
    rename_folder (fun k => k == ['a', '/', 'y'])
        [['a', '/', 'x'], ['a', '/', 'y']] ['a'] ['b'] =
      Except.error [['a', '/', 'x'], ['a', '/', 'y'], ['b', '/', 'x']] ∧
    (['a', '/', 'y'] : Key) ∈
      [['a', '/', 'x'], ['a', '/', 'y'], ['b', '/', 'x']] :=
  ⟨by decide,
   C1_rename_abort_preserves_source (fun k => k == ['a', '/', 'y'])
     [['a', '/', 'x'], ['a', '/', 'y']] ['a'] ['b']
     [['a', '/', 'x'], ['a', '/', 'y'], ['b', '/', 'x']] (by decide)
     ['a', '/', 'y'] (by decide) (by rfl)⟩

/-- C6: when every copy succeeds, `rename_folder` makes, for each key
`k` under the old prefix, the key `newPrefix ++ (k minus oldPrefix)`
exist, and removes `k` and the old marker — provided neither normalised
prefix is a prefix of the other (e.g. `a/` vs `b/`), which rules out
destination keys falling back under the old prefix. -/
theorem C6_rename_success_moves_keys (fail : Key → Bool)
    (store : List Key) (o n : Key) (s : List Key)
    (hon : (normSlash o).isPrefixOf (normSlash n) = false)
    (hno : (normSlash n).isPrefixOf (normSlash o) = false)
    (h : rename_folder fail store o n = Except.ok s) :
    (∀ k ∈ store, (normSlash o).isPrefixOf k = true →
        (normSlash n ++ k.drop (normSlash o).length) ∈ s ∧ k ∉ s) ∧
    normSlash o ∉ s := by
  unfold rename_folder at h
  dsimp only at h
  rcases hcl : copyLoop fail (normSlash o) (normSlash n) store
      (list_all_keys store (normSlash o)) with s1 | s1
  · rw [hcl] at h; simp at h
  · rw [hcl] at h
    simp only [Except.ok.injEq] at h
    subst h
    have hdst_not_under : ∀ t : Key,
        (normSlash o).isPrefixOf (normSlash n ++ t) = false := by
      intro t
      by_contra hc
      rcases pre_of_append_pre (by simpa using hc) with hx | hx
      · rw [hon] at hx; exact Bool.noConfusion hx
      · rw [hno] at hx; exact Bool.noConfusion hx
    constructor
    · intro k hk hpre
      have hkeys : k ∈ list_all_keys store (normSlash o) := by
        simp [list_all_keys, List.mem_filter, hk, hpre]
      set dst := normSlash n ++ k.drop (normSlash o).length with hdst
      have hdst_s1 : dst ∈ s1 :=
        copyLoop_ok_dst fail (normSlash o) (normSlash n) _ store s1 hcl k hkeys
      have hdst_not_keys : dst ∉ list_all_keys store (normSlash o) := by
        intro hc
        have := (List.mem_filter.mp hc).2
        rw [hdst_not_under] at this
        exact Bool.noConfusion this
      have hdst_ne_old : ¬(dst == normSlash o) = true := by
        intro hc
        have he : dst = normSlash o := by simpa using hc
        have := hdst_not_under (k.drop (normSlash o).length)
        rw [← hdst, he] at this
        rw [isPrefixOf_refl] at this
        exact Bool.noConfusion this
      constructor
      · have h1 : (list_all_keys store (normSlash o)).contains dst = false :=
          Bool.eq_false_iff.mpr
            (fun hc => hdst_not_keys ((contains_iff _ _).mp hc))
        have h2 : (dst == normSlash o) = false :=
          Bool.eq_false_iff.mpr hdst_ne_old
        simp only [delete_object, delete_objects_keys, List.mem_filter]
        exact ⟨⟨hdst_s1, by rw [h1]; rfl⟩, by rw [h2]; rfl⟩
      · intro hc
        simp only [delete_object, delete_objects_keys, List.mem_filter] at hc
        have hcont := hc.1.2
        rw [Bool.not_eq_eq_eq_not, Bool.not_true] at hcont
        rw [(contains_iff _ _).mpr hkeys] at hcont
        exact Bool.noConfusion hcont
    · intro hc
      simp only [delete_object, List.mem_filter] at hc
      have := hc.2
      simp at this

/-- C6 witness: `rename_folder(bucket, "a/", "b/")` over keys
`{a/x, a/y/z}` yields exactly `{b/x, b/y/z}`, with the sources and `a/`
absent. -/
theorem C6_rename_success_witness :
    rename_folder (fun _ => false)
        [['a', '/', 'x'], ['a', '/', 'y', '/', 'z']] ['a'] ['b'] =
      Except.ok [['b', '/', 'x'], ['b', '/', 'y', '/', 'z']] ∧
    ((normSlash ['b'] ++ (['a', '/', 'x'] : Key).drop (normSlash ['a']).length) ∈
        [['b', '/', 'x'], ['b', '/', 'y', '/', 'z']] ∧
      (['a', '/', 'x'] : Key) ∉ [['b', '/', 'x'], ['b', '/', 'y', '/', 'z']]) ∧
    normSlash ['a'] ∉ [['b', '/', 'x'], ['b', '/', 'y', '/', 'z']] :=
  ⟨by decide,
   (C6_rename_success_moves_keys (fun _ => false)
       [['a', '/', 'x'], ['a', '/', 'y', '/', 'z']] ['a'] ['b']
       [['b', '/', 'x'], ['b', '/', 'y', '/', 'z']]
       (by decide) (by decide) (by decide)).1
     ['a', '/', 'x'] (by decide) (by decide),
   (C6_rename_success_moves_keys (fun _ => false)
       [['a', '/', 'x'], ['a', '/', 'y', '/', 'z']] ['a'] ['b']
       [['b', '/', 'x'], ['b', '/', 'y', '/', 'z']]
       (by decide) (by decide) (by decide)).2⟩

/-! ## `delete_objects`: batch delete in chunks of 1000

```
if not keys:
    return
for i in range(0, len(keys), 1000):
    chunk = keys[i:i + 1000]
    self.s3.delete_objects(...)
```

`failAt i = true` means the `i`-th `s3.delete_objects` call raises;
the exception propagates, so later chunks are never submitted, and the
failed call is assumed to delete nothing. -/

/-- The successive slices `keys[i:i+1000]` for `i = 0, 1000, 2000, …`. -/
def chunks1000 (l : List Key) : List (List Key) :=
  if l.isEmpty then [] else l.take 1000 :: chunks1000 (l.drop 1000)
termination_by l.length
decreasing_by
  rename_i h
  simp only [List.isEmpty_iff] at h
  have hpos : 0 < l.length := List.length_pos.mpr h
  simp only [List.length_drop]
  omega

/-- Observable outcome of a `delete_objects` call: the batch calls that
were issued (in order), the keys that were actually deleted, and the
index of the batch call whose exception propagated, if any. -/
structure DelRes where
  calls : List (List Key)
  deleted : List Key
  failedCall : Option Nat
deriving DecidableEq

/-- The chunk loop, starting at batch-call index `i`. -/
def delLoop (failAt : Nat → Bool) : Nat → List (List Key) → DelRes
  | _, [] => ⟨[], [], none⟩
  | i, c :: rest =>
    if failAt i then ⟨[c], [], some i⟩
    else
      let r := delLoop failAt (i + 1) rest
      ⟨c :: r.calls, c ++ r.deleted, r.failedCall⟩

/-- `delete_objects(bucket, keys)` under the failure oracle `failAt`. -/
def delete_objects (failAt : Nat → Bool) (keys : List Key) : DelRes :=
  if keys.isEmpty then ⟨[], [], none⟩ else delLoop failAt 0 (chunks1000 keys)

theorem isEmpty_false_of_pos {l : List Key} (h : 0 < l.length) :
    l.isEmpty = false := by
  cases l with
  | nil => simp at h
  | cons a t => rfl

theorem chunks1000_eq_2500 (l : List Key) (h : l.length = 2500) :
    chunks1000 l =
      [l.take 1000, (l.drop 1000).take 1000, (l.drop 1000).drop 1000] := by
  have h1 : l.isEmpty = false := isEmpty_false_of_pos (by omega)
  have h2 : (l.drop 1000).isEmpty = false :=
    isEmpty_false_of_pos (by simp [List.length_drop, h])
  have h3 : ((l.drop 1000).drop 1000).isEmpty = false :=
    isEmpty_false_of_pos (by simp [List.length_drop, h])
  have h4 : (((l.drop 1000).drop 1000).drop 1000).isEmpty = true := by
    rw [List.isEmpty_iff_length_eq_zero]
    simp only [List.length_drop, h]
  have h6 : ((l.drop 1000).drop 1000).take 1000 = (l.drop 1000).drop 1000 :=
    List.take_of_length_le (by simp only [List.length_drop, h]; omega)
  rw [chunks1000, h1]
  rw [chunks1000, h2]
  rw [chunks1000, h3]
  rw [chunks1000, h4]
  simp [h6, h]

/-- The concrete 2500-key input used to settle C2: 2500 distinct keys. -/
def c2keys : List Key :=
  (List.range 2500).map (fun i => List.replicate i 'k')

theorem c2keys_length : c2keys.length = 2500 := by
  simp [c2keys]

theorem c2keys_nodup : c2keys.Nodup := by
  refine List.Nodup.map ?_ (List.nodup_range 2500)
  intro a b hab
  simpa using congrArg List.length hab

/-- C2 counterexample: the claim reads `delete_objects` over 2500 keys
as issuing exactly 3 batch calls and, when the second fails, reporting
the keys of chunks 2 and 3 as unprocessed.  On the code, a failing
second call makes the exception propagate at once: only 2 batch calls
are ever issued (the third chunk is never submitted, and the propagated
error carries no key list). -/
theorem C2_counterexample :
    (delete_objects (fun i => i == 1) c2keys).calls.length = 2 ∧
    (delete_objects (fun i => i == 1) c2keys).calls.length ≠ 3 := by
  have hch := chunks1000_eq_2500 c2keys c2keys_length
  have hne : c2keys.isEmpty = false :=
    isEmpty_false_of_pos (by rw [c2keys_length]; omega)
  rw [delete_objects, hne, hch]
  simp [delLoop]

/-- C2 (amended): over any 2500-key input, the code issues one batch
call per 1000-key chunk **in order, stopping at the first failure**:
with no failure it issues exactly 3 calls of sizes 1000/1000/500 and
deletes every key reporting no failure; success (no propagated
failure) is reported exactly when none of the three calls fails; and
when the second call fails, only two calls were issued, the first
chunk's keys are deleted while the keys of chunks 2 and 3 (the tail
`keys.drop 1000`) are not (the propagated error does not name them). -/
theorem C2_delete_objects_chunks (keys : List Key)
    (hlen : keys.length = 2500) (hnd : keys.Nodup) :
    ((delete_objects (fun _ => false) keys).calls.map List.length =
        [1000, 1000, 500] ∧
      (delete_objects (fun _ => false) keys).deleted = keys ∧
      (delete_objects (fun _ => false) keys).failedCall = none) ∧
    (∀ failAt : Nat → Bool,
      (delete_objects failAt keys).failedCall = none ↔
        (failAt 0 = false ∧ failAt 1 = false ∧ failAt 2 = false)) ∧
    ((delete_objects (fun i => i == 1) keys).calls.map List.length =
        [1000, 1000] ∧
      (delete_objects (fun i => i == 1) keys).deleted = keys.take 1000 ∧
      (delete_objects (fun i => i == 1) keys).failedCall = some 1 ∧
      ∀ k ∈ keys.drop 1000,
        k ∉ (delete_objects (fun i => i == 1) keys).deleted) := by
  have hch := chunks1000_eq_2500 keys hlen
  have hne : keys.isEmpty = false := isEmpty_false_of_pos (by omega)
  have hl1 : (keys.take 1000).length = 1000 := by
    rw [List.length_take, hlen]
    omega
  have hl2 : ((keys.drop 1000).take 1000).length = 1000 := by
    rw [List.length_take, List.length_drop, hlen]
    omega
  have hl3 : ((keys.drop 1000).drop 1000).length = 500 := by
    simp only [List.length_drop]
    omega
  refine ⟨?_, ?_, ?_⟩
  · have hres : delete_objects (fun _ => false) keys =
        ⟨[keys.take 1000, (keys.drop 1000).take 1000,
            (keys.drop 1000).drop 1000],
          keys.take 1000 ++ ((keys.drop 1000).take 1000 ++
            ((keys.drop 1000).drop 1000 ++ [])), none⟩ := by
      rw [delete_objects, hne, hch]
      simp [delLoop]
    rw [hres]
    refine ⟨by simp [hl1, hl2, hl3, hlen], ?_, rfl⟩
    simp only [List.append_nil, List.take_append_drop]
  · intro failAt
    cases hf0 : failAt 0 <;> cases hf1 : failAt 1 <;> cases hf2 : failAt 2 <;>
      simp [delete_objects, hne, hch, delLoop, hf0, hf1, hf2]
  · have hres : delete_objects (fun i => i == 1) keys =
        ⟨[keys.take 1000, (keys.drop 1000).take 1000],
          keys.take 1000 ++ [], some 1⟩ := by
      rw [delete_objects, hne, hch]
      simp [delLoop]
    rw [hres]
    have hd : List.Disjoint (keys.take 1000) (keys.drop 1000) :=
      List.disjoint_take_drop hnd (le_refl 1000)
    refine ⟨by simp [hl1, hl2], by simp, rfl, ?_⟩
    intro k hk hcon
    simp only [List.append_nil] at hcon
    exact hd hcon hk

/-- C2 witness: the amended statement holds of the concrete 2500
distinct keys `c2keys`. -/
theorem C2_delete_objects_witness :
    (delete_objects (fun _ => false) c2keys).failedCall = none ∧
    (delete_objects (fun i => i == 1) c2keys).failedCall = some 1 :=
  ⟨(C2_delete_objects_chunks c2keys c2keys_length c2keys_nodup).1.2.2,
   (C2_delete_objects_chunks c2keys c2keys_length c2keys_nodup).2.2.2.2.1⟩

/-! ## `TransferManager`: the priority scheduler

`_QueueItem` is an `@dataclass(order=True)`, so `heapq` compares items
lexicographically over all fields in declaration order
`(priority, seq, tid, mode, bucket, key, local_path)`.  `seq` comes
from a single `itertools.count()`, so two distinct items never agree on
`(priority, seq)` in a reachable state and the later fields never
decide a comparison; the model orders by `(priority, seq)` and breaks
exact `(priority, seq)` ties by list position. -/

/-- `mode`: `"UPLOAD" | "DOWNLOAD" | "OPEN"`. -/
inductive TMode
  | upload
  | download
  | openView
deriving DecidableEq

/-- `PRI_OPEN = 0`, `PRI_DOWNLOAD = 1`, `PRI_UPLOAD = 2` — the priority
each `enqueue_*` wrapper passes to `_enqueue` (lower = served first). -/
def priOf : TMode → Nat
  | TMode.openView => 0
  | TMode.download => 1
  | TMode.upload => 2

/-- `_QueueItem`, fields in dataclass order. -/
structure QItem where
  priority : Nat
  seq : Nat
  tid : Key
  mode : TMode
  bucket : Key
  key : Key
  localPath : Key
deriving DecidableEq

/-- The heap order actually exercised: lexicographic on
`(priority, seq)` (non-strict). -/
def itemLe (a b : QItem) : Bool :=
  Nat.blt a.priority b.priority ||
    (a.priority == b.priority && Nat.ble a.seq b.seq)

/-- Strict version of the heap order. -/
def itemLt (a b : QItem) : Bool :=
  Nat.blt a.priority b.priority ||
    (a.priority == b.priority && Nat.blt a.seq b.seq)

theorem itemLe_refl (a : QItem) : itemLe a a = true := by
  simp [itemLe, Nat.ble_eq]

theorem itemLe_total (a b : QItem) (h : ¬itemLe a b = true) :
    itemLe b a = true := by
  simp only [itemLe, Nat.blt_eq, Nat.ble_eq, Bool.or_eq_true,
    Bool.and_eq_true, beq_iff_eq] at h ⊢
  omega

theorem itemLe_trans (a b c : QItem) (h1 : itemLe a b = true)
    (h2 : itemLe b c = true) : itemLe a c = true := by
  simp only [itemLe, Nat.blt_eq, Nat.ble_eq, Bool.or_eq_true,
    Bool.and_eq_true, beq_iff_eq] at h1 h2 ⊢
  omega

theorem itemLt_not_le (a b : QItem) (h : itemLt a b = true) :
    ¬itemLe b a = true := by
  simp only [itemLt, itemLe, Nat.blt_eq, Nat.ble_eq, Bool.or_eq_true,
    Bool.and_eq_true, beq_iff_eq] at h ⊢
  omega

/-- `heapq.heappop`: remove and return the least item of the heap (the
first position among exact `(priority, seq)` duplicates — such
duplicates never occur in reachable states, where `seq` is unique). -/
def popMin : List QItem → Option (QItem × List QItem)
  | [] => none
  | x :: xs =>
    match popMin xs with
    | none => some (x, [])
    | some (m, r) => if itemLe x m then some (x, xs) else some (m, x :: r)

theorem popMin_eq_none (l : List QItem) : popMin l = none ↔ l = [] := by
  cases l with
  | nil => simp [popMin]
  | cons x xs =>
    simp only [popMin]
    cases popMin xs with
    | none => simp
    | some mr =>
      cases mr with
      | mk m r =>
        by_cases h : itemLe x m = true <;> simp [h]

theorem popMin_mem {l : List QItem} {m : QItem} {r : List QItem}
    (h : popMin l = some (m, r)) : m ∈ l := by
  induction l generalizing m r with
  | nil => simp [popMin] at h
  | cons x xs ih =>
    cases hp : popMin xs with
    | none =>
      simp only [popMin, hp] at h
      simp only [Option.some.injEq, Prod.mk.injEq] at h
      rw [← h.1]
      exact List.mem_cons_self x xs
    | some mr =>
      obtain ⟨m', r'⟩ := mr
      simp only [popMin, hp] at h
      by_cases hle : itemLe x m' = true
      · rw [if_pos hle] at h
        simp only [Option.some.injEq, Prod.mk.injEq] at h
        rw [← h.1]
        exact List.mem_cons_self x xs
      · rw [if_neg hle] at h
        simp only [Option.some.injEq, Prod.mk.injEq] at h
        rw [← h.1]
        exact List.mem_cons_of_mem x (ih hp)

theorem popMin_min {l : List QItem} {m : QItem} {r : List QItem}
    (h : popMin l = some (m, r)) : ∀ x ∈ l, itemLe m x = true := by
  induction l generalizing m r with
  | nil => simp [popMin] at h
  | cons x xs ih =>
    cases hp : popMin xs with
    | none =>
      simp only [popMin, hp] at h
      have hxs : xs = [] := (popMin_eq_none xs).mp hp
      simp only [Option.some.injEq, Prod.mk.injEq] at h
      subst hxs
      intro y hy
      rcases List.mem_cons.mp hy with hy | hy
      · rw [← h.1, hy]; exact itemLe_refl _
      · simp at hy
    | some mr =>
      obtain ⟨m', r'⟩ := mr
      simp only [popMin, hp] at h
      by_cases hle : itemLe x m' = true
      · rw [if_pos hle] at h
        simp only [Option.some.injEq, Prod.mk.injEq] at h
        intro y hy
        rcases List.mem_cons.mp hy with hy | hy
        · rw [← h.1, hy]; exact itemLe_refl _
        · rw [← h.1]
          exact itemLe_trans _ _ _ hle (ih hp y hy)
      · rw [if_neg hle] at h
        simp only [Option.some.injEq, Prod.mk.injEq] at h
        intro y hy
        rcases List.mem_cons.mp hy with hy | hy
        · rw [← h.1, hy]
          exact itemLe_total _ _ hle
        · rw [← h.1]
          exact ih hp y hy

theorem popMin_rest_subset {l : List QItem} {m : QItem} {r : List QItem}
    (h : popMin l = some (m, r)) : ∀ x ∈ r, x ∈ l := by
  induction l generalizing m r with
  | nil => simp [popMin] at h
  | cons x xs ih =>
    cases hp : popMin xs with
    | none =>
      simp only [popMin, hp] at h
      simp only [Option.some.injEq, Prod.mk.injEq] at h
      rw [← h.2]
      intro y hy
      simp at hy
    | some mr =>
      obtain ⟨m', r'⟩ := mr
      simp only [popMin, hp] at h
      by_cases hle : itemLe x m' = true
      · rw [if_pos hle] at h
        simp only [Option.some.injEq, Prod.mk.injEq] at h
        rw [← h.2]
        intro y hy
        exact List.mem_cons_of_mem x hy
      · rw [if_neg hle] at h
        simp only [Option.some.injEq, Prod.mk.injEq] at h
        rw [← h.2]
        intro y hy
        rcases List.mem_cons.mp hy with hy | hy
        · rw [hy]; exact List.mem_cons_self x xs
        · exact List.mem_cons_of_mem x (ih hp y hy)

theorem popMin_mem_rest {l : List QItem} {m : QItem} {r : List QItem}
    (h : popMin l = some (m, r)) :
    ∀ x ∈ l, x ≠ m → x ∈ r := by
  induction l generalizing m r with
  | nil => simp [popMin] at h
  | cons x xs ih =>
    cases hp : popMin xs with
    | none =>
      simp only [popMin, hp] at h
      have hxs : xs = [] := (popMin_eq_none xs).mp hp
      simp only [Option.some.injEq, Prod.mk.injEq] at h
      subst hxs
      intro y hy hne
      rcases List.mem_cons.mp hy with hy | hy
      · exact absurd (hy.trans h.1) hne
      · simp at hy
    | some mr =>
      obtain ⟨m', r'⟩ := mr
      simp only [popMin, hp] at h
      by_cases hle : itemLe x m' = true
      · rw [if_pos hle] at h
        simp only [Option.some.injEq, Prod.mk.injEq] at h
        intro y hy hne
        rw [← h.2]
        rcases List.mem_cons.mp hy with hy | hy
        · exact absurd (hy.trans h.1) hne
        · exact hy
      · rw [if_neg hle] at h
        simp only [Option.some.injEq, Prod.mk.injEq] at h
        intro y hy hne
        rw [← h.2]
        rcases List.mem_cons.mp hy with hy | hy
        · rw [hy]; exact List.mem_cons_self x r'
        · exact List.mem_cons_of_mem x (ih hp y hy (fun he => hne (he.trans h.1)))

theorem popMin_length {l : List QItem} {m : QItem} {r : List QItem}
    (h : popMin l = some (m, r)) : r.length < l.length := by
  induction l generalizing m r with
  | nil => simp [popMin] at h
  | cons x xs ih =>
    cases hp : popMin xs with
    | none =>
      simp only [popMin, hp] at h
      simp only [Option.some.injEq, Prod.mk.injEq] at h
      rw [← h.2]
      simp
    | some mr =>
      obtain ⟨m', r'⟩ := mr
      simp only [popMin, hp] at h
      by_cases hle : itemLe x m' = true
      · rw [if_pos hle] at h
        simp only [Option.some.injEq, Prod.mk.injEq] at h
        rw [← h.2]
        simp
      · rw [if_neg hle] at h
        simp only [Option.some.injEq, Prod.mk.injEq] at h
        rw [← h.2]
        have := ih hp
        simp only [List.length_cons]
        omega

/-- The `while len(self.active) < self.max_parallel and self._pq:` loop
of `_pump`, returning `(admitted items in pop order, remaining queue)`.
`fuel` bounds the iteration count; every call site passes
`fuel = pq.length`, which is enough because each iteration pops one
item, so the fuel never runs out before the Python loop would exit. -/
def pumpFuel (mp : Nat) : Nat → Nat → List QItem → List QItem × List QItem
  | 0, _, pq => ([], pq)
  | Nat.succ n, activeN, pq =>
    if activeN < mp then
      match popMin pq with
      | none => ([], pq)
      | some (m, r) =>
        let rest := pumpFuel mp n (activeN + 1) r
        (m :: rest.1, rest.2)
    else ([], pq)

/-- Scheduler state: `TransferManager.__init__` fields relevant to
scheduling (`self._pq`, `self._seq`, `self.active` as the list of
running task ids, `self.max_parallel`, `self._paused`). -/
structure SchedSt where
  pq : List QItem
  seqC : Nat
  active : List Key
  maxParallel : Nat
  paused : Bool
deriving DecidableEq

/-- `TransferManager.__init__`: empty heap, counter at 0, no active
workers, not paused. -/
def initSt (mp : Nat) : SchedSt := ⟨[], 0, [], mp, false⟩

/-- `_pump`: returns nothing when paused, otherwise admits queued items
while a slot is free, starting a worker for each (the admitted item's
`tid` joins `self.active`).  Also returns the admitted items. -/
def pump (s : SchedSt) : SchedSt × List QItem :=
  if s.paused then (s, [])
  else
    let r := pumpFuel s.maxParallel s.pq.length s.active.length s.pq
    ({ s with pq := r.2, active := s.active ++ r.1.map QItem.tid }, r.1)

/-- The `_QueueItem` built by `_enqueue` (the uuid-derived `tid` is an
input, external randomness). -/
def enqItem (m : TMode) (b k lp tid : Key) (s : SchedSt) : QItem :=
  ⟨priOf m, s.seqC, tid, m, b, k, lp⟩

/-- `_enqueue`: build the item with the next sequence number, push it,
then `_pump()`. -/
def enqueue (m : TMode) (b k lp tid : Key) (s : SchedSt) : SchedSt :=
  (pump { s with pq := s.pq ++ [enqItem m b k lp tid s],
                 seqC := s.seqC + 1 }).1

/-- `on_done`: `self.active.pop(_tid, None)` then `self._pump()` (task
ids are unique in reachable states, so removing every occurrence
matches the dict `pop`). -/
def workerDone (tid : Key) (s : SchedSt) : SchedSt :=
  (pump { s with active := s.active.filter (fun t => !(t == tid)) }).1

/-- `on_err`: same active-set/pump behaviour as `on_done`. -/
def workerFail (tid : Key) (s : SchedSt) : SchedSt :=
  (pump { s with active := s.active.filter (fun t => !(t == tid)) }).1

/-- `pause()`. -/
def pauseStep (s : SchedSt) : SchedSt := { s with paused := true }

/-- `resume()`: unset the flag and `_pump()`. -/
def resumeStep (s : SchedSt) : SchedSt :=
  (pump { s with paused := false }).1

/-- `clear_queue()`. -/
def clearStep (s : SchedSt) : SchedSt := { s with pq := [] }

/-- One observable scheduler action. -/
inductive SAct
  | enq (m : TMode) (b k lp tid : Key)
  | finish (tid : Key)
  | fail (tid : Key)
  | pumpOnly
  | pause
  | resume
  | clear

def stepA : SAct → SchedSt → SchedSt
  | SAct.enq m b k lp tid, s => enqueue m b k lp tid s
  | SAct.finish tid, s => workerDone tid s
  | SAct.fail tid, s => workerFail tid s
  | SAct.pumpOnly, s => (pump s).1
  | SAct.pause, s => pauseStep s
  | SAct.resume, s => resumeStep s
  | SAct.clear, s => clearStep s

/-- Run a sequence of scheduler actions from a state. -/
def execA (acts : List SAct) (s : SchedSt) : SchedSt :=
  acts.foldl (fun st a => stepA a st) s

/-! ### Admission-loop lemmas -/

theorem pumpFuel_count (mp : Nat) :
    ∀ (fuel activeN : Nat) (pq : List QItem), activeN ≤ mp →
      activeN + (pumpFuel mp fuel activeN pq).1.length ≤ mp := by
  intro fuel
  induction fuel with
  | zero => intro activeN pq h; simpa [pumpFuel]
  | succ n ih =>
    intro activeN pq h
    by_cases hlt : activeN < mp
    · simp only [pumpFuel, if_pos hlt]
      cases hp : popMin pq with
      | none => simpa
      | some mr =>
        obtain ⟨m, r⟩ := mr
        have := ih (activeN + 1) r hlt
        simp only [List.length_cons]
        omega
    · simp only [pumpFuel, if_neg hlt]
      simpa

theorem pumpFuel_adm_mem (mp : Nat) :
    ∀ (fuel activeN : Nat) (pq : List QItem),
      ∀ x ∈ (pumpFuel mp fuel activeN pq).1, x ∈ pq := by
  intro fuel
  induction fuel with
  | zero => intro activeN pq x hx; simp [pumpFuel] at hx
  | succ n ih =>
    intro activeN pq x hx
    by_cases hlt : activeN < mp
    · simp only [pumpFuel, if_pos hlt] at hx
      cases hp : popMin pq with
      | none => rw [hp] at hx; simp at hx
      | some mr =>
        obtain ⟨m, r⟩ := mr
        rw [hp] at hx
        simp only [List.mem_cons] at hx
        rcases hx with hx | hx
        · rw [hx]; exact popMin_mem hp
        · exact popMin_rest_subset hp x (ih (activeN + 1) r x hx)
    · simp only [pumpFuel, if_neg hlt] at hx
      simp at hx

theorem pumpFuel_sorted (mp : Nat) :
    ∀ (fuel activeN : Nat) (pq : List QItem),
      (pumpFuel mp fuel activeN pq).1.Pairwise
        (fun a b => itemLe a b = true) := by
  intro fuel
  induction fuel with
  | zero => intro activeN pq; simp [pumpFuel]
  | succ n ih =>
    intro activeN pq
    by_cases hlt : activeN < mp
    · simp only [pumpFuel, if_pos hlt]
      cases hp : popMin pq with
      | none => simp
      | some mr =>
        obtain ⟨m, r⟩ := mr
        simp only
        refine List.Pairwise.cons ?_ (ih (activeN + 1) r)
        intro y hy
        exact popMin_min hp y
          (popMin_rest_subset hp y (pumpFuel_adm_mem mp n (activeN + 1) r y hy))
    · simp only [pumpFuel, if_neg hlt]
      simp

theorem pumpFuel_closed (mp : Nat) :
    ∀ (fuel activeN : Nat) (pq : List QItem) (A B : QItem),
      A ∈ pq → itemLt A B = true →
      B ∈ (pumpFuel mp fuel activeN pq).1 →
      A ∈ (pumpFuel mp fuel activeN pq).1 := by
  intro fuel
  induction fuel with
  | zero => intro activeN pq A B _ _ hB; simp [pumpFuel] at hB
  | succ n ih =>
    intro activeN pq A B hA hlt hB
    by_cases hslot : activeN < mp
    · cases hp : popMin pq with
      | none =>
        simp only [pumpFuel, if_pos hslot, hp] at hB
        simp at hB
      | some mr =>
        obtain ⟨m, r⟩ := mr
        simp only [pumpFuel, if_pos hslot, hp] at hB ⊢
        simp only [List.mem_cons] at hB ⊢
        by_cases hAm : A = m
        · exact Or.inl hAm
        · refine Or.inr ?_
          have hAr : A ∈ r := popMin_mem_rest hp A hA hAm
          rcases hB with hB | hB
          · exfalso
            have hmin := popMin_min hp A hA
            rw [← hB] at hmin
            exact itemLt_not_le A B hlt hmin
          · exact ih (activeN + 1) r A B hAr hlt hB
    · simp only [pumpFuel, if_neg hslot] at hB
      simp at hB

/-- In a list that is pairwise `itemLe`-sorted, a strictly smaller
member occurs before any strictly larger member. -/
theorem sorted_sublist_pair :
    ∀ (l : List QItem) (A B : QItem),
      l.Pairwise (fun a b => itemLe a b = true) →
      A ∈ l → B ∈ l → itemLt A B = true →
      List.Sublist [A, B] l := by
  intro l
  induction l with
  | nil => intro A B _ hA; simp at hA
  | cons x xs ih =>
    intro A B hpw hA hB hlt
    have hpw' := List.pairwise_cons.mp hpw
    rcases List.mem_cons.mp hA with hAx | hAxs
    · subst hAx
      have hBxs : B ∈ xs := by
        rcases List.mem_cons.mp hB with hBx | hBxs
        · exfalso
          rw [hBx] at hlt
          exact itemLt_not_le A A hlt (itemLe_refl A)
        · exact hBxs
      exact List.Sublist.cons₂ A ((List.singleton_sublist).mpr hBxs)
    · have hBxs : B ∈ xs := by
        rcases List.mem_cons.mp hB with hBx | hBxs
        · exfalso
          have hle := hpw'.1 A hAxs
          rw [hBx] at hlt
          exact itemLt_not_le A x hlt hle
        · exact hBxs
      exact List.Sublist.cons x (ih A B hpw'.2 hAxs hBxs hlt)

/-! ### Scheduler-state helper lemmas -/

theorem pump_maxParallel (s : SchedSt) :
    (pump s).1.maxParallel = s.maxParallel := by
  unfold pump
  by_cases hp : s.paused <;> simp [hp]

theorem pump_seqC (s : SchedSt) : (pump s).1.seqC = s.seqC := by
  unfold pump
  by_cases hp : s.paused <;> simp [hp]

theorem pump_active_le (s : SchedSt)
    (h : s.active.length ≤ s.maxParallel) :
    (pump s).1.active.length ≤ s.maxParallel := by
  unfold pump
  by_cases hp : s.paused
  · simpa [hp]
  · simp only [hp, if_false, Bool.false_eq_true, List.length_append,
      List.length_map]
    have := pumpFuel_count s.maxParallel s.pq.length s.active.length s.pq h
    omega

theorem pump_active_superset (s : SchedSt) :
    ∀ t ∈ s.active, t ∈ (pump s).1.active := by
  unfold pump
  by_cases hp : s.paused
  · simp only [hp, if_true]
    exact fun t ht => ht
  · simp only [hp, if_false, Bool.false_eq_true]
    intro t ht
    exact List.mem_append_left _ ht

theorem stepA_maxParallel (a : SAct) (s : SchedSt) :
    (stepA a s).maxParallel = s.maxParallel := by
  cases a <;>
    simp [stepA, enqueue, workerDone, workerFail, pauseStep, resumeStep,
      clearStep, pump_maxParallel]

theorem stepA_active_le (a : SAct) (s : SchedSt)
    (h : s.active.length ≤ s.maxParallel) :
    (stepA a s).active.length ≤ s.maxParallel := by
  cases a with
  | enq m b k lp tid => exact pump_active_le _ h
  | finish tid =>
    exact pump_active_le _ (le_trans (List.length_filter_le _ _) h)
  | fail tid =>
    exact pump_active_le _ (le_trans (List.length_filter_le _ _) h)
  | pumpOnly => exact pump_active_le _ h
  | pause => exact h
  | resume => exact pump_active_le _ h
  | clear => exact h

theorem execA_maxParallel :
    ∀ (acts : List SAct) (s : SchedSt),
      (execA acts s).maxParallel = s.maxParallel := by
  intro acts
  induction acts with
  | nil => intro s; rfl
  | cons a rest ih =>
    intro s
    have : execA (a :: rest) s = execA rest (stepA a s) := rfl
    rw [this, ih (stepA a s), stepA_maxParallel]

theorem execA_active_le :
    ∀ (acts : List SAct) (s : SchedSt),
      s.active.length ≤ s.maxParallel →
      (execA acts s).active.length ≤ (execA acts s).maxParallel := by
  intro acts
  induction acts with
  | nil => intro s h; exact h
  | cons a rest ih =>
    intro s h
    have hstep : execA (a :: rest) s = execA rest (stepA a s) := rfl
    rw [hstep]
    exact ih (stepA a s)
      ((stepA_maxParallel a s).symm ▸ stepA_active_le a s h)

/-- C3: along any sequence of scheduler actions (enqueues,
worker-terminal events, pumps, pause/resume/clear) starting from a
fresh `TransferManager` with limit `mp`, the set of running workers
never exceeds `mp`. -/
theorem C3_running_bounded_by_maxParallel (mp : Nat) (acts : List SAct) :
    (execA acts (initSt mp)).active.length ≤ mp := by
  have h1 := execA_active_le acts (initSt mp) (by simp [initSt])
  rwa [execA_maxParallel] at h1

/-- C4: whenever two items `A` and `B` are both queued as a pump runs
(a slot having freed) and `A`'s priority class is strictly higher
(numerically smaller), then if `B` is admitted by that pump, `A` is
admitted earlier in the same pump — and an enqueue never removes a
running task from the active set (no preemption of running tasks). -/
theorem C4_priority_admission (s : SchedSt) (A B : QItem)
    (hA : A ∈ s.pq) (_hB : B ∈ s.pq)
    (hpri : A.priority < B.priority) :
    (B ∈ (pump s).2 → List.Sublist [A, B] (pump s).2) ∧
    (∀ (m : TMode) (b k lp tid : Key),
      ∀ t ∈ s.active, t ∈ (enqueue m b k lp tid s).active) := by
  constructor
  · intro hBadm
    have hlt : itemLt A B = true := by
      simp [itemLt, Nat.blt_eq, hpri]
    unfold pump at hBadm ⊢
    by_cases hp : s.paused
    · rw [if_pos hp] at hBadm; simp at hBadm
    · rw [if_neg hp] at hBadm ⊢
      simp only at hBadm ⊢
      have hAadm := pumpFuel_closed s.maxParallel s.pq.length
        s.active.length s.pq A B hA hlt hBadm
      exact sorted_sublist_pair _ A B
        (pumpFuel_sorted s.maxParallel s.pq.length s.active.length s.pq)
        hAadm hBadm hlt
  · intro m b k lp tid t ht
    unfold enqueue
    exact pump_active_superset _ t (by simpa)

/-- C4 witness: with `B` (an upload, enqueued first) and `A` (an
open/view, enqueued later) both queued and two free slots, the pump
admits `A` before `B`; and an enqueue keeps the running task `t`
running. -/
theorem C4_priority_admission_witness :
    List.Sublist
      [(⟨0, 1, ['A'], TMode.openView, [], [], []⟩ : QItem),
       (⟨2, 0, ['B'], TMode.upload, [], [], []⟩ : QItem)]
      (pump ⟨[⟨2, 0, ['B'], TMode.upload, [], [], []⟩,
              ⟨0, 1, ['A'], TMode.openView, [], [], []⟩], 2, [['t']], 3,
              false⟩).2 ∧
    (['t'] : Key) ∈
      (enqueue TMode.upload [] [] [] ['u']
        ⟨[⟨2, 0, ['B'], TMode.upload, [], [], []⟩,
          ⟨0, 1, ['A'], TMode.openView, [], [], []⟩], 2, [['t']], 3,
          false⟩).active :=
  ⟨(C4_priority_admission _ _ _ (by decide) (by decide) (by decide)).1
      (by decide),
   (C4_priority_admission _
      (⟨0, 1, ['A'], TMode.openView, [], [], []⟩ : QItem)
      (⟨2, 0, ['B'], TMode.upload, [], [], []⟩ : QItem)
      (by decide) (by decide) (by decide)).2
      TMode.upload [] [] [] ['u'] ['t'] (by decide)⟩

/-- C5: each `_enqueue` draws the item's sequence number from the
single monotonically increasing counter (the item gets the current
counter value and the counter advances by one); and among queued items
of equal priority class the one with the smaller sequence number is
admitted first by any pump (FIFO within a class; with `maxParallel = 1`
an upload enqueued first starts first). -/
theorem C5_fifo_within_class (s : SchedSt) (m : TMode)
    (b k lp tid : Key) (A B : QItem) :
    ((enqueue m b k lp tid s).seqC = s.seqC + 1 ∧
      (enqItem m b k lp tid s).seq = s.seqC) ∧
    (A ∈ s.pq → B ∈ s.pq → A.priority = B.priority → A.seq < B.seq →
      B ∈ (pump s).2 → List.Sublist [A, B] (pump s).2) := by
  constructor
  · constructor
    · unfold enqueue
      rw [pump_seqC]
    · rfl
  · intro hA hB hpri hseq hBadm
    have hlt : itemLt A B = true := by
      simp [itemLt, Nat.blt_eq, hpri, Nat.lt_irrefl, hseq]
    unfold pump at hBadm ⊢
    by_cases hp : s.paused
    · rw [if_pos hp] at hBadm; simp at hBadm
    · rw [if_neg hp] at hBadm ⊢
      simp only at hBadm ⊢
      have hAadm := pumpFuel_closed s.maxParallel s.pq.length
        s.active.length s.pq A B hA hlt hBadm
      exact sorted_sublist_pair _ A B
        (pumpFuel_sorted s.maxParallel s.pq.length s.active.length s.pq)
        hAadm hBadm hlt

/-- C5 witness: two queued uploads, `k1` with sequence 0 enqueued
before `k2` with sequence 1; the pump admits `k1` before `k2`, and an
enqueue advances the counter. -/
theorem C5_fifo_within_class_witness :
    ((enqueue TMode.upload [] [] [] ['u']
        ⟨[⟨2, 1, ['2'], TMode.upload, [], [], []⟩,
          ⟨2, 0, ['1'], TMode.upload, [], [], []⟩], 2, [], 2,
          false⟩).seqC = 3 ∧
      (enqItem TMode.upload [] [] [] ['u']
        ⟨[⟨2, 1, ['2'], TMode.upload, [], [], []⟩,
          ⟨2, 0, ['1'], TMode.upload, [], [], []⟩], 2, [], 2,
          false⟩).seq = 2) ∧
    List.Sublist
      [(⟨2, 0, ['1'], TMode.upload, [], [], []⟩ : QItem),
       (⟨2, 1, ['2'], TMode.upload, [], [], []⟩ : QItem)]
      (pump ⟨[⟨2, 1, ['2'], TMode.upload, [], [], []⟩,
              ⟨2, 0, ['1'], TMode.upload, [], [], []⟩], 2, [], 2,
              false⟩).2 :=
  ⟨(C5_fifo_within_class _ TMode.upload [] [] [] ['u']
      (⟨2, 0, ['1'], TMode.upload, [], [], []⟩ : QItem)
      (⟨2, 1, ['2'], TMode.upload, [], [], []⟩ : QItem)).1,
   (C5_fifo_within_class _ TMode.upload [] [] [] ['u']
      (⟨2, 0, ['1'], TMode.upload, [], [], []⟩ : QItem)
      (⟨2, 1, ['2'], TMode.upload, [], [], []⟩ : QItem)).2
      (by decide) (by decide) (by decide) (by decide) (by decide)⟩

/-! ## `TransferWorker`

The worker is a `QThread` whose `run` performs one upload or download,
emitting Qt signals `progress(int)`, `status(str)`, `error(str)` and
`done(local_path)`.  The model maps `run` (and the boto3 byte-callback
`_cb`) to a pure function from an environment — the outcomes of the
gateway and filesystem calls and the sequence of progress callbacks the
gateway delivers — to the list of emitted signals plus the list of
gateway calls issued.  Wall-clock readings are rationals; status-text
contents (speed figures, exception strings) are abstracted to tags. -/

/-- `self.mode`: `"upload" | "download"` (OPEN is mapped to a download
by the manager before the worker is built). -/
inductive WMode
  | download
  | upload
deriving DecidableEq

/-- The exception message carried by a worker failure. -/
inductive Msg
  | transferCancelled
  | downloadNotOnDisk
  | localFileMissing
  | gwErr (code : Nat)
deriving DecidableEq

/-- Status-text tags (exact strings, speed figures aside). -/
inductive StTxt
  | startingDownload
  | startingUpload
  | pctLine (pct : ℤ)
  | doneTxt
  | failedTxt
deriving DecidableEq

/-- One emitted Qt signal. -/
inductive Ev
  | progress (pct : ℤ)
  | status (t : StTxt)
  | errorEv (m : Msg)
  | doneEv (path : Key)
deriving DecidableEq

/-- Gateway (S3Client) calls the worker can make. -/
inductive GwCall
  | headObject
  | downloadFile
  | uploadFile
deriving DecidableEq

/-- Mutable worker fields read by `_cb`:
`_seen`, `_total`, `_last_emit`, `_cancel_requested` (and `_t0`, used
only for the speed figure, which the model abstracts away). -/
structure CbSt where
  seen : Nat
  total : Nat
  lastEmit : ℚ
  cancelReq : Bool
deriving DecidableEq

/-- The 0.12-second UI throttle. -/
def throttleQ : ℚ := 12 / 100

/-- `TransferWorker._cb(bytes_amount)`: cooperative-cancel check, then
accumulate `_seen`; bail out if the total is unknown or the throttle
interval has not elapsed; otherwise emit
`progress(max(0, min(100, int((_seen / _total) * 100))))` and a status
line carrying the same percentage.  `interrupted` is
`isInterruptionRequested()` and `now` is `time.time()` at this call;
`int()` truncates toward zero, which equals `Int.floor` on the
nonnegative ratio. -/
def cb (st : CbSt) (interrupted : Bool) (now : ℚ) (bytes : Nat) :
    CbSt × List Ev :=
  if interrupted then ({ st with cancelReq := true }, [])
  else
    let st1 := { st with seen := st.seen + bytes }
    if st1.total = 0 then (st1, [])
    else if now - st1.lastEmit < throttleQ then (st1, [])
    else
      let st2 := { st1 with lastEmit := now }
      let pct0 : ℤ := Int.floor (((st2.seen : ℚ) / (st2.total : ℚ)) * 100)
      let pct : ℤ := max 0 (min 100 pct0)
      (st2, [Ev.progress pct, Ev.status (StTxt.pctLine pct)])

/-- One boto3 callback delivery: `isInterruptionRequested()`,
`time.time()`, `bytes_amount`. -/
abbrev CbIn := Bool × ℚ × Nat

/-- All callbacks a gateway transfer delivers, folded through `_cb`. -/
def runCbs (st : CbSt) : List CbIn → CbSt × List Ev
  | [] => (st, [])
  | (i, now, b) :: rest =>
    let r := cb st i now b
    let r2 := runCbs r.1 rest
    (r2.1, r.2 ++ r2.2)

/-- Environment of one `run`: outcomes of the external calls.
`sizeRes` is `get_object_size` (downloads), `cbs` the callback
deliveries during the transfer, `xferRes` the outcome of
`download_file`/`upload_file`, `existsAfter` the post-download
`os.path.exists`, `srcExists`/`srcSize` the pre-upload
`os.path.exists`/`os.path.getsize`. -/
structure WEnv where
  sizeRes : Except Msg Nat
  cbs : List CbIn
  xferRes : Except Msg Unit
  existsAfter : Bool
  srcExists : Bool
  srcSize : Nat
deriving DecidableEq

/-- The `except` handler of `run`: `status.emit("Failed")` then
`error.emit(str(e))`. -/
def failTrace (pre : List Ev) (calls : List GwCall) (m : Msg) :
    List Ev × List GwCall :=
  (pre ++ [Ev.status StTxt.failedTxt, Ev.errorEv m], calls)

/-- `TransferWorker.run`, as a function of the environment; returns the
emitted signals in order and the gateway calls issued.  `os.makedirs`
is modelled as always succeeding (its failure would only add another
path through the same `except` handler); removal of a partial file on
cancel is a filesystem effect with no emitted signal. -/
def run (mode : WMode) (localPath : Key) (env : WEnv) :
    List Ev × List GwCall :=
  match mode with
  | WMode.download =>
    let pre := [Ev.status StTxt.startingDownload]
    match env.sizeRes with
    | Except.error e => failTrace pre [GwCall.headObject] e
    | Except.ok total =>
      let r := runCbs ⟨0, total, 0, false⟩ env.cbs
      let pre2 := pre ++ r.2
      let calls := [GwCall.headObject, GwCall.downloadFile]
      match env.xferRes with
      | Except.error e => failTrace pre2 calls e
      | Except.ok _ =>
        if r.1.cancelReq then
          failTrace pre2 calls Msg.transferCancelled
        else if env.existsAfter = false then
          failTrace pre2 calls Msg.downloadNotOnDisk
        else
          (pre2 ++ [Ev.progress 100, Ev.status StTxt.doneTxt,
            Ev.doneEv localPath], calls)
  | WMode.upload =>
    let pre := [Ev.status StTxt.startingUpload]
    if env.srcExists = false then
      failTrace pre [] Msg.localFileMissing
    else
      let r := runCbs ⟨0, env.srcSize, 0, false⟩ env.cbs
      let pre2 := pre ++ r.2
      let calls := [GwCall.uploadFile]
      match env.xferRes with
      | Except.error e => failTrace pre2 calls e
      | Except.ok _ =>
        if r.1.cancelReq then
          failTrace pre2 calls Msg.transferCancelled
        else
          (pre2 ++ [Ev.progress 100, Ev.status StTxt.doneTxt,
            Ev.doneEv localPath], calls)

/-- Terminal signals: `error` (mapped by the manager to
Failed/Cancelled) and `done` (Completed). -/
def isTerm : Ev → Bool
  | Ev.errorEv _ => true
  | Ev.doneEv _ => true
  | _ => false

/-- The percentages carried by the progress events of a trace. -/
def pcts (evs : List Ev) : List ℤ :=
  evs.filterMap (fun e =>
    match e with
    | Ev.progress p => some p
    | _ => none)

/-- A trace that ends in exactly one terminal event. -/
def endsOneTerm (evs : List Ev) : Prop :=
  ∃ pre e, evs = pre ++ [e] ∧ isTerm e = true ∧
    ∀ x ∈ pre, isTerm x = false

/-- The percentage `_cb` computes from cumulative bytes and a total:
`max(0, min(100, int((seen / total) * 100)))`. -/
def curPct (seen total : Nat) : ℤ :=
  max 0 (min 100 (Int.floor (((seen : ℚ) / (total : ℚ)) * 100)))

theorem curPct_nonneg (seen total : Nat) : 0 ≤ curPct seen total :=
  le_max_left 0 _

theorem curPct_le_100 (seen total : Nat) : curPct seen total ≤ 100 :=
  max_le (by norm_num) (min_le_left _ _)

theorem curPct_mono (total : Nat) {a b : Nat} (h : a ≤ b) :
    curPct a total ≤ curPct b total := by
  unfold curPct
  rcases Nat.eq_zero_or_pos total with h0 | h0
  · subst h0; simp
  · have ht : (0 : ℚ) < total := by exact_mod_cast h0
    have hdiv : (a : ℚ) / total ≤ (b : ℚ) / total :=
      div_le_div_of_nonneg_right (by exact_mod_cast h) ht.le
    have hmul : (a : ℚ) / total * 100 ≤ (b : ℚ) / total * 100 :=
      mul_le_mul_of_nonneg_right hdiv (by norm_num)
    exact max_le_max (le_refl 0)
      (min_le_min (le_refl 100) (Int.floor_le_floor hmul))

/-- `int((seen / total) * 100)` clamped agrees with natural floor
division `min 100 (seen * 100 / total)` when the total is known. -/
theorem curPct_eq_natDiv (seen total : Nat) (_h : total ≠ 0) :
    curPct seen total = ((min 100 (seen * 100 / total) : ℕ) : ℤ) := by
  unfold curPct
  have h1 : ((seen : ℚ) / total) * 100 =
      (((seen * 100 : ℕ) : ℤ) : ℚ) / ((total : ℕ) : ℚ) := by
    push_cast
    ring
  rw [h1, Rat.floor_intCast_div_natCast]
  have h2 : ((seen * 100 : ℕ) : ℤ) / ((total : ℕ) : ℤ) =
      ((seen * 100 / total : ℕ) : ℤ) :=
    (Int.natCast_div (seen * 100) total).symm
  rw [h2, Nat.cast_min]
  have h3 : (0 : ℤ) ≤ min ((100 : ℕ) : ℤ) ((seen * 100 / total : ℕ) : ℤ) :=
    le_min (by norm_num) (Int.ofNat_nonneg _)
  rw [max_eq_right (by exact_mod_cast h3)]
  norm_num

/-! ### `_cb` branch analysis -/

theorem cb_total (st : CbSt) (intr : Bool) (now : ℚ) (bytes : Nat) :
    (cb st intr now bytes).1.total = st.total := by
  unfold cb
  dsimp only
  split_ifs <;> rfl

theorem cb_seen_le (st : CbSt) (intr : Bool) (now : ℚ) (bytes : Nat) :
    st.seen ≤ (cb st intr now bytes).1.seen := by
  unfold cb
  dsimp only
  split_ifs <;> simp

/-- Either `_cb` emits nothing, or it emits exactly one progress event
and one status line, both carrying the clamped percentage of the new
cumulative byte count. -/
theorem cb_cases (st : CbSt) (intr : Bool) (now : ℚ) (bytes : Nat) :
    (cb st intr now bytes).2 = [] ∨
    ((cb st intr now bytes).2 =
        [Ev.progress (curPct (st.seen + bytes) st.total),
         Ev.status (StTxt.pctLine (curPct (st.seen + bytes) st.total))] ∧
      (cb st intr now bytes).1.seen = st.seen + bytes ∧
      st.total ≠ 0) := by
  unfold cb
  dsimp only
  split_ifs with h1 h2 h3
  · exact Or.inl rfl
  · exact Or.inl rfl
  · exact Or.inl rfl
  · exact Or.inr ⟨rfl, rfl, h2⟩

theorem cb_no_term (st : CbSt) (intr : Bool) (now : ℚ) (bytes : Nat) :
    ∀ e ∈ (cb st intr now bytes).2, isTerm e = false := by
  rcases cb_cases st intr now bytes with h | ⟨h, _, _⟩ <;> rw [h] <;>
      intro e he
  · simp at he
  · simp only [List.mem_cons, List.not_mem_nil, or_false] at he
    rcases he with he | he <;> rw [he] <;> rfl

/-- Invariants of the callback fold: the total is fixed, the byte count
only grows, no terminal event is emitted, and the emitted percentages
are sorted, bounded below by the entry percentage and above by 100. -/
theorem runCbs_master : ∀ (cbs : List CbIn) (st : CbSt),
    (runCbs st cbs).1.total = st.total ∧
    st.seen ≤ (runCbs st cbs).1.seen ∧
    (∀ e ∈ (runCbs st cbs).2, isTerm e = false) ∧
    (pcts (runCbs st cbs).2).Pairwise (fun a b => a ≤ b) ∧
    (∀ p ∈ pcts (runCbs st cbs).2,
      curPct st.seen st.total ≤ p ∧ p ≤ 100) := by
  intro cbs
  induction cbs with
  | nil =>
    intro st
    refine ⟨rfl, le_refl _, ?_, ?_, ?_⟩ <;> simp [runCbs, pcts]
  | cons c rest ih =>
    intro st
    obtain ⟨i, now, b⟩ := c
    have hstep : runCbs st ((i, now, b) :: rest) =
        ((runCbs (cb st i now b).1 rest).1,
          (cb st i now b).2 ++ (runCbs (cb st i now b).1 rest).2) := rfl
    have hht := cb_total st i now b
    have hhs := cb_seen_le st i now b
    obtain ⟨iht, ihs, ihnt, ihpw, ihbd⟩ := ih (cb st i now b).1
    rcases cb_cases st i now b with hnil | ⟨hev, hseen, hne⟩
    · rw [hstep, hnil]
      simp only [List.nil_append]
      refine ⟨iht.trans hht, le_trans hhs ihs, ihnt, ihpw, ?_⟩
      intro p hp
      have := ihbd p hp
      rw [hht] at this
      exact ⟨le_trans (curPct_mono st.total hhs) this.1, this.2⟩
    · rw [hstep, hev]
      have hpcts : pcts ((Ev.progress (curPct (st.seen + b) st.total) ::
          Ev.status (StTxt.pctLine (curPct (st.seen + b) st.total)) :: []) ++
            (runCbs (cb st i now b).1 rest).2) =
          curPct (st.seen + b) st.total ::
            pcts (runCbs (cb st i now b).1 rest).2 := by
        simp [pcts]
      refine ⟨iht.trans hht, le_trans hhs ihs, ?_, ?_, ?_⟩
      · intro e he
        rcases List.mem_append.mp he with he | he
        · rw [← hev] at he
          exact cb_no_term st i now b e he
        · exact ihnt e he
      · rw [hpcts]
        refine List.Pairwise.cons ?_ ihpw
        intro q hq
        have := (ihbd q hq).1
        rw [hht, hseen] at this
        exact this
      · rw [hpcts]
        intro p hp
        rcases List.mem_cons.mp hp with hp | hp
        · subst hp
          exact ⟨curPct_mono st.total (Nat.le_add_right _ _),
            curPct_le_100 _ _⟩
        · have := ihbd p hp
          rw [hht] at this
          exact ⟨le_trans (curPct_mono st.total hhs) this.1, this.2⟩

theorem cb_total_zero (st : CbSt) (intr : Bool) (now : ℚ) (bytes : Nat)
    (h : st.total = 0) : (cb st intr now bytes).2 = [] := by
  rcases cb_cases st intr now bytes with hc | ⟨_, _, hne⟩
  · exact hc
  · exact absurd h hne

theorem runCbs_total_zero : ∀ (cbs : List CbIn) (st : CbSt),
    st.total = 0 → (runCbs st cbs).2 = [] := by
  intro cbs
  induction cbs with
  | nil => intro st _; rfl
  | cons c rest ih =>
    intro st h
    obtain ⟨i, now, b⟩ := c
    have hstep : runCbs st ((i, now, b) :: rest) =
        ((runCbs (cb st i now b).1 rest).1,
          (cb st i now b).2 ++ (runCbs (cb st i now b).1 rest).2) := rfl
    rw [hstep, cb_total_zero st i now b h,
      ih (cb st i now b).1 ((cb_total st i now b).trans h)]
    rfl

/-- The first status line `run` emits. -/
def startEv : WMode → Ev
  | WMode.download => Ev.status StTxt.startingDownload
  | WMode.upload => Ev.status StTxt.startingUpload

/-- The transfer total is zero (an empty remote object for a download,
an empty local file for an upload). -/
def totalZero (mode : WMode) (env : WEnv) : Prop :=
  (mode = WMode.download ∧ env.sizeRes = Except.ok 0) ∨
  (mode = WMode.upload ∧ env.srcSize = 0)

/-- Shape of every `run` trace: a starting status line, the callback
events (non-terminal, sorted percentages in `[0, 100]`), and then
either the `except`-handler pair `status("Failed"); error(e)` or the
success triple `progress(100); status("Done"); done(local_path)`.
When the total is zero there are no callback events at all. -/
theorem run_shape (mode : WMode) (path : Key) (env : WEnv) :
    ∃ cbEvs : List Ev,
      (∀ x ∈ cbEvs, isTerm x = false) ∧
      (pcts cbEvs).Pairwise (fun a b => a ≤ b) ∧
      (∀ p ∈ pcts cbEvs, 0 ≤ p ∧ p ≤ 100) ∧
      ((∃ m0, (run mode path env).1 =
          (startEv mode :: cbEvs) ++
            [Ev.status StTxt.failedTxt, Ev.errorEv m0]) ∨
        (run mode path env).1 =
          (startEv mode :: cbEvs) ++
            [Ev.progress 100, Ev.status StTxt.doneTxt, Ev.doneEv path]) ∧
      (totalZero mode env → cbEvs = []) := by
  cases mode with
  | download =>
    cases hsz : env.sizeRes with
    | error e =>
      refine ⟨[], by simp, by simp [pcts], by simp [pcts], ?_, fun _ => rfl⟩
      refine Or.inl ⟨e, ?_⟩
      simp [run, hsz, failTrace, startEv]
    | ok total =>
      obtain ⟨mt, ms, mnt, mpw, mbd⟩ :=
        runCbs_master env.cbs ⟨0, total, 0, false⟩
      refine ⟨(runCbs ⟨0, total, 0, false⟩ env.cbs).2, mnt, mpw, ?_, ?_, ?_⟩
      · intro p hp
        exact ⟨le_trans (curPct_nonneg 0 total) (mbd p hp).1, (mbd p hp).2⟩
      · cases hx : env.xferRes with
        | error e =>
          refine Or.inl ⟨e, ?_⟩
          simp [run, hsz, hx, failTrace, startEv]
        | ok u =>
          by_cases hcanc : (runCbs ⟨0, total, 0, false⟩ env.cbs).1.cancelReq
          · refine Or.inl ⟨Msg.transferCancelled, ?_⟩
            simp [run, hsz, hx, hcanc, failTrace, startEv]
          · by_cases hex : env.existsAfter = false
            · refine Or.inl ⟨Msg.downloadNotOnDisk, ?_⟩
              simp [run, hsz, hx, hcanc, hex, failTrace, startEv]
            · refine Or.inr ?_
              simp [run, hsz, hx, hcanc, hex, startEv]
      · intro hz
        rcases hz with ⟨_, hz⟩ | ⟨hm, _⟩
        · rw [hsz] at hz
          simp only [Except.ok.injEq] at hz
          exact runCbs_total_zero env.cbs ⟨0, total, 0, false⟩ (by simp [hz])
        · exact absurd hm (by simp)
  | upload =>
    by_cases hsrc : env.srcExists = false
    · refine ⟨[], by simp, by simp [pcts], by simp [pcts], ?_, fun _ => rfl⟩
      refine Or.inl ⟨Msg.localFileMissing, ?_⟩
      simp [run, hsrc, failTrace, startEv]
    · obtain ⟨mt, ms, mnt, mpw, mbd⟩ :=
        runCbs_master env.cbs ⟨0, env.srcSize, 0, false⟩
      refine ⟨(runCbs ⟨0, env.srcSize, 0, false⟩ env.cbs).2, mnt, mpw,
        ?_, ?_, ?_⟩
      · intro p hp
        exact ⟨le_trans (curPct_nonneg 0 env.srcSize) (mbd p hp).1,
          (mbd p hp).2⟩
      · cases hx : env.xferRes with
        | error e =>
          refine Or.inl ⟨e, ?_⟩
          simp [run, hsrc, hx, failTrace, startEv]
        | ok u =>
          by_cases hcanc :
              (runCbs ⟨0, env.srcSize, 0, false⟩ env.cbs).1.cancelReq
          · refine Or.inl ⟨Msg.transferCancelled, ?_⟩
            simp [run, hsrc, hx, hcanc, failTrace, startEv]
          · refine Or.inr ?_
            simp [run, hsrc, hx, hcanc, startEv]
      · intro hz
        rcases hz with ⟨hm, _⟩ | ⟨_, hz⟩
        · exact absurd hm (by simp)
        · exact runCbs_total_zero env.cbs ⟨0, env.srcSize, 0, false⟩
            (by simp [hz])

theorem startEv_not_term (mode : WMode) : isTerm (startEv mode) = false := by
  cases mode <;> rfl

theorem startEv_not_done (mode : WMode) (p : Key) :
    startEv mode ≠ Ev.doneEv p := by
  cases mode <;> simp [startEv]

theorem pcts_append (l1 l2 : List Ev) :
    pcts (l1 ++ l2) = pcts l1 ++ pcts l2 := by
  simp [pcts]

theorem pcts_cons_start (mode : WMode) (l : List Ev) :
    pcts (startEv mode :: l) = pcts l := by
  cases mode <;> simp [pcts, startEv]

/-- C7: every worker trace carries monotonically non-decreasing
progress percentages and ends with exactly one terminal signal —
`done` (Completed, carrying the worker's local path) or `error`
(mapped by the manager to Failed or Cancelled) — never zero terminal
signals and never more than one. -/
theorem C7_progress_monotone_single_terminal (mode : WMode) (path : Key)
    (env : WEnv) :
    endsOneTerm (run mode path env).1 ∧
    (pcts (run mode path env).1).Pairwise (fun a b => a ≤ b) ∧
    (∀ p, Ev.doneEv p ∈ (run mode path env).1 → p = path) := by
  obtain ⟨cbEvs, hnt, hpw, hbd, hshape, _⟩ := run_shape mode path env
  rcases hshape with ⟨m0, heq⟩ | heq
  · rw [heq]
    refine ⟨?_, ?_, ?_⟩
    · refine ⟨(startEv mode :: cbEvs) ++ [Ev.status StTxt.failedTxt],
        Ev.errorEv m0, by simp, rfl, ?_⟩
      intro x hx
      rcases List.mem_append.mp hx with hx | hx
      · rcases List.mem_cons.mp hx with hx | hx
        · rw [hx]; exact startEv_not_term mode
        · exact hnt x hx
      · simp only [List.mem_singleton] at hx
        rw [hx]; rfl
    · rw [pcts_append, pcts_cons_start]
      have h2 : pcts [Ev.status StTxt.failedTxt, Ev.errorEv m0] = [] := by
        simp [pcts]
      rw [h2, List.append_nil]
      exact hpw
    · intro p hp
      rcases List.mem_append.mp hp with hx | hx
      · rcases List.mem_cons.mp hx with hx | hx
        · exact absurd hx.symm (startEv_not_done mode p)
        · have := hnt _ hx
          simp [isTerm] at this
      · simp at hx
  · rw [heq]
    refine ⟨?_, ?_, ?_⟩
    · refine ⟨(startEv mode :: cbEvs) ++
        [Ev.progress 100, Ev.status StTxt.doneTxt], Ev.doneEv path,
        by simp, rfl, ?_⟩
      intro x hx
      rcases List.mem_append.mp hx with hx | hx
      · rcases List.mem_cons.mp hx with hx | hx
        · rw [hx]; exact startEv_not_term mode
        · exact hnt x hx
      · simp only [List.mem_cons, List.not_mem_nil, or_false] at hx
        rcases hx with hx | hx <;> rw [hx] <;> rfl
    · rw [pcts_append, pcts_cons_start]
      have h2 : pcts [Ev.progress 100, Ev.status StTxt.doneTxt,
          Ev.doneEv path] = [100] := by
        simp [pcts]
      rw [h2]
      rw [List.pairwise_append]
      refine ⟨hpw, by simp, ?_⟩
      intro a ha b hb
      simp only [List.mem_singleton] at hb
      rw [hb]
      exact (hbd a ha).2
    · intro p hp
      rcases List.mem_append.mp hp with hx | hx
      · rcases List.mem_cons.mp hx with hx | hx
        · exact absurd hx.symm (startEv_not_done mode p)
        · have := hnt _ hx
          simp [isTerm] at this
      · simp only [List.mem_cons, List.not_mem_nil, or_false] at hx
        rcases hx with hx | hx | hx
        · exact absurd hx (by simp)
        · exact absurd hx (by simp)
        · exact (Ev.doneEv.inj hx).symm ▸ rfl

/-- C8: an upload whose local source file does not exist fails (one
`status("Failed")` plus the `error` terminal carrying the
file-not-found message) and issues no gateway call at all. -/
theorem C8_upload_source_missing (path : Key) (env : WEnv)
    (h : env.srcExists = false) :
    run WMode.upload path env =
      ([Ev.status StTxt.startingUpload, Ev.status StTxt.failedTxt,
        Ev.errorEv Msg.localFileMissing], []) := by
  simp [run, h, failTrace]

/-- C8 witness: a concrete upload environment with a missing source. -/
theorem C8_upload_source_missing_witness :
    run WMode.upload ['p']
        ⟨Except.ok 0, [], Except.ok (), true, false, 5⟩ =
      ([Ev.status StTxt.startingUpload, Ev.status StTxt.failedTxt,
        Ev.errorEv Msg.localFileMissing], []) :=
  C8_upload_source_missing ['p']
    ⟨Except.ok 0, [], Except.ok (), true, false, 5⟩ rfl

/-- C9: every progress percentage `_cb` emits equals
`floor(bytesSeen / total * 100)` clamped to `[0, 100]` (with
`bytesSeen` the cumulative count including this callback's bytes) —
equivalently, `min 100 (bytesSeen * 100 / total)` in natural floor
division. -/
theorem C9_percent_formula (st : CbSt) (intr : Bool) (now : ℚ)
    (bytes : Nat) (p : ℤ)
    (hp : Ev.progress p ∈ (cb st intr now bytes).2) :
    0 ≤ p ∧ p ≤ 100 ∧ p = curPct (st.seen + bytes) st.total ∧
    p = ((min 100 ((st.seen + bytes) * 100 / st.total) : ℕ) : ℤ) := by
  rcases cb_cases st intr now bytes with hc | ⟨hev, _, hne⟩
  · rw [hc] at hp; simp at hp
  · rw [hev] at hp
    simp only [List.mem_cons, List.not_mem_nil, or_false] at hp
    rcases hp with hp | hp
    · have hpe := Ev.progress.inj hp
      subst hpe
      exact ⟨curPct_nonneg _ _, curPct_le_100 _ _, rfl,
        curPct_eq_natDiv _ _ hne⟩
    · exact absurd hp (by simp)

/-- C9 witness: one callback delivering 1 byte of a 4-byte transfer
past the throttle interval emits exactly 25 percent. -/
theorem C9_percent_formula_witness :
    (0 : ℤ) ≤ 25 ∧ (25 : ℤ) ≤ 100 ∧ (25 : ℤ) = curPct (0 + 1) 4 ∧
    (25 : ℤ) = ((min 100 ((0 + 1) * 100 / 4) : ℕ) : ℤ) :=
  C9_percent_formula ⟨0, 4, 0, false⟩ false 1 1 25 (by
    have hcb : (cb ⟨0, 4, 0, false⟩ false 1 1).2 =
        [Ev.progress 25, Ev.status (StTxt.pctLine 25)] := by
      unfold cb
      dsimp only
      rw [if_neg (by simp), if_neg (by norm_num),
        if_neg (by norm_num [throttleQ])]
      norm_num
    rw [hcb]
    exact List.mem_cons_self _ _)

/-- C10: with a zero (or never-established) total, `_cb` returns before
any percentage is computed — no division by zero, no intermediate
progress event — and a zero-total task's whole trace carries either no
percentage (failure/cancel) or exactly the final 100, the latter
exactly when the task completes. -/
theorem C10_zero_total_no_progress (st : CbSt) (intr : Bool) (now : ℚ)
    (bytes : Nat) (mode : WMode) (path : Key) (env : WEnv)
    (hst : st.total = 0) (henv : totalZero mode env) :
    (cb st intr now bytes).2 = [] ∧
    (pcts (run mode path env).1 = [] ∨
      pcts (run mode path env).1 = [100]) ∧
    (pcts (run mode path env).1 = [100] ↔
      Ev.doneEv path ∈ (run mode path env).1) := by
  refine ⟨cb_total_zero st intr now bytes hst, ?_⟩
  obtain ⟨cbEvs, hnt, _, _, hshape, hz⟩ := run_shape mode path env
  have hc := hz henv
  subst hc
  rcases hshape with ⟨m0, heq⟩ | heq
  · rw [heq]
    have hpc : pcts ((startEv mode :: []) ++
        [Ev.status StTxt.failedTxt, Ev.errorEv m0]) = [] := by
      rw [pcts_append, pcts_cons_start]
      simp [pcts]
    rw [hpc]
    refine ⟨Or.inl rfl, ?_⟩
    constructor
    · intro hcontra
      exact absurd hcontra (by simp)
    · intro hmem
      exfalso
      rcases List.mem_append.mp hmem with hx | hx
      · rcases List.mem_cons.mp hx with hx | hx
        · exact startEv_not_done mode path hx.symm
        · simp at hx
      · simp at hx
  · rw [heq]
    have hpc : pcts ((startEv mode :: []) ++
        [Ev.progress 100, Ev.status StTxt.doneTxt, Ev.doneEv path]) =
        [100] := by
      rw [pcts_append, pcts_cons_start]
      simp [pcts]
    rw [hpc]
    refine ⟨Or.inr rfl, ?_⟩
    constructor
    · intro _
      refine List.mem_append.mpr (Or.inr ?_)
      simp
    · intro _
      rfl

/-- C10 witness: an upload of an empty (0-byte) local file receiving a
byte callback emits no intermediate progress; the whole successful
trace carries exactly the final 100. -/
theorem C10_zero_total_no_progress_witness :
    (cb ⟨7, 0, 0, false⟩ false 1 7).2 = [] ∧
    (pcts (run WMode.upload ['p']
        ⟨Except.ok 0, [(false, 1, 7)], Except.ok (), true, true, 0⟩).1 =
          [] ∨
      pcts (run WMode.upload ['p']
        ⟨Except.ok 0, [(false, 1, 7)], Except.ok (), true, true, 0⟩).1 =
          [100]) ∧
    (pcts (run WMode.upload ['p']
        ⟨Except.ok 0, [(false, 1, 7)], Except.ok (), true, true, 0⟩).1 =
          [100] ↔
      Ev.doneEv ['p'] ∈ (run WMode.upload ['p']
        ⟨Except.ok 0, [(false, 1, 7)], Except.ok (), true, true, 0⟩).1) :=
  C10_zero_total_no_progress ⟨7, 0, 0, false⟩ false 1 7 WMode.upload ['p']
    ⟨Except.ok 0, [(false, 1, 7)], Except.ok (), true, true, 0⟩ rfl
    (Or.inr ⟨rfl, rfl⟩)

end S3App
